import Mathlib

/-!
# Verification of the `dmap` sharded map (package `dmap`)

Shallow embedding of the Go package `dmap`: a generic, sharded key-value
store.  Keys are routed to shards by hashing the key's printed
representation with SHA-1 and combining two digest bytes
(`int(checksum[7]<<1 | checksum[19]) % len(m)`); each shard holds an
association `items` map and a running `count`.

Machine integers are modelled as `Nat`/`Int` with explicit `% 2^w`
reductions where the Go code performs fixed-width (byte / uint32)
arithmetic.  Go's `map[K]V` is modelled as an association list with
unique keys; the unspecified iteration order of a Go map is irrelevant
to the claims, which are stated up to multiset/set equality.
-/

set_option linter.unusedSectionVars false
set_option maxRecDepth 1000000

namespace DmapSpec

/-! ## SHA-1 over byte lists (crypto/sha1), with `Nat` arithmetic mod 2^32 -/

/-- Truncate to a 32-bit word, as all `uint32` arithmetic in SHA-1 does. -/
def w32 (x : Nat) : Nat := x % 4294967296

/-- 32-bit left rotation of a word (operand assumed `< 2^32`). -/
def rotl (n x : Nat) : Nat := w32 ((x <<< n) ||| (x >>> (32 - n)))

/-- Pack consecutive byte quadruples into big-endian 32-bit words. -/
def bytesToWords : List Nat → List Nat
  | b0 :: b1 :: b2 :: b3 :: rest =>
      (((b0 % 256) <<< 24) ||| ((b1 % 256) <<< 16) |||
       ((b2 % 256) <<< 8) ||| (b3 % 256)) :: bytesToWords rest
  | _ => []

/-- Message-schedule extension: append
`rotl1 (w[i-3] ^^^ w[i-8] ^^^ w[i-14] ^^^ w[i-16])` the given number of
times (64 times extends the 16 chunk words to 80). -/
def extendWords : Nat → List Nat → List Nat
  | 0, ws => ws
  | n + 1, ws =>
      let l := ws.length
      extendWords n
        (ws ++ [rotl 1 (ws.getD (l - 3) 0 ^^^ ws.getD (l - 8) 0 ^^^
                        ws.getD (l - 14) 0 ^^^ ws.getD (l - 16) 0)])

/-- The round function `f` of SHA-1 for round `i`. -/
def sha1F (i b c d : Nat) : Nat :=
  if i < 20 then (b &&& c) ||| ((b ^^^ 4294967295) &&& d)
  else if i < 40 then b ^^^ c ^^^ d
  else if i < 60 then (b &&& c) ||| (b &&& d) ||| (c &&& d)
  else b ^^^ c ^^^ d

/-- The round constant `k` of SHA-1 for round `i`. -/
def sha1K (i : Nat) : Nat :=
  if i < 20 then 1518500249
  else if i < 40 then 1859775393
  else if i < 60 then 2400959708
  else 3395469782

/-- One SHA-1 round applied to the working state `(a, b, c, d, e)`. -/
def sha1Round (ws : List Nat) (st : Nat × Nat × Nat × Nat × Nat) (i : Nat) :
    Nat × Nat × Nat × Nat × Nat :=
  match st with
  | (a, b, c, d, e) =>
      (w32 (rotl 5 a + sha1F i b c d + e + sha1K i + ws.getD i 0),
       a, rotl 30 b, c, d)

/-- Process one 64-byte chunk, updating the five hash words. -/
def processChunk (hs : Nat × Nat × Nat × Nat × Nat) (chunk : List Nat) :
    Nat × Nat × Nat × Nat × Nat :=
  match hs with
  | (h0, h1, h2, h3, h4) =>
      let ws := extendWords 64 (bytesToWords chunk)
      match (List.range 80).foldl (sha1Round ws) (h0, h1, h2, h3, h4) with
      | (a, b, c, d, e) =>
          (w32 (h0 + a), w32 (h1 + b), w32 (h2 + c), w32 (h3 + d), w32 (h4 + e))

/-- Split a list into 64-byte chunks.  The first argument is structural
fuel (any value `≥ l.length` yields all chunks); it keeps the recursion
structural so that proofs can evaluate the function. -/
def toChunksAux : Nat → List Nat → List (List Nat)
  | 0, _ => []
  | _, [] => []
  | fuel + 1, l => l.take 64 :: toChunksAux fuel (l.drop 64)

/-- Split a list into 64-byte chunks. -/
def toChunks (l : List Nat) : List (List Nat) := toChunksAux l.length l

/-- SHA-1 padding: `0x80`, zeros to 56 mod 64, then the bit length as
eight big-endian bytes. -/
def sha1Pad (msg : List Nat) : List Nat :=
  let ml := msg.length * 8
  let z := (64 - ((msg.length + 9) % 64)) % 64
  msg ++ [128] ++ List.replicate z 0 ++
    [(ml >>> 56) % 256, (ml >>> 48) % 256, (ml >>> 40) % 256,
     (ml >>> 32) % 256, (ml >>> 24) % 256, (ml >>> 16) % 256,
     (ml >>> 8) % 256, ml % 256]

/-- The four big-endian bytes of a 32-bit word. -/
def wordBytes (h : Nat) : List Nat :=
  [(h >>> 24) % 256, (h >>> 16) % 256, (h >>> 8) % 256, h % 256]

/-- The five 32-bit hash words after processing every chunk of the padded
message (the input bytes are byte strings, hence the `% 256` view). -/
def sha1Words (msg : List Nat) : Nat × Nat × Nat × Nat × Nat :=
  (toChunks (sha1Pad (msg.map (· % 256)))).foldl processChunk
    (1732584193, 4023233417, 2562383102, 271733878, 3285377520)

/-- `sha1.Sum`: the 20-byte SHA-1 digest of a byte string. -/
def sha1Sum (msg : List Nat) : List Nat :=
  wordBytes (sha1Words msg).1 ++ wordBytes (sha1Words msg).2.1 ++
  wordBytes (sha1Words msg).2.2.1 ++ wordBytes (sha1Words msg).2.2.2.1 ++
  wordBytes (sha1Words msg).2.2.2.2

/-- Known-answer test validating the embedding: the SHA-1 digest of the
empty byte string is the published value `da39a3ee…0709`. -/
theorem sha1Sum_nil_known_answer : sha1Sum [] =
    [0xda, 0x39, 0xa3, 0xee, 0x5e, 0x6b, 0x4b, 0x0d, 0x32, 0x55,
     0xbf, 0xef, 0x95, 0x60, 0x18, 0x90, 0xaf, 0xd8, 0x07, 0x09] := by decide

/-! ## The Go `map[K]V`, modelled as an association list with unique keys -/

variable {K V : Type} [DecidableEq K]

/-- `v, ok := items[key]`: the value stored for `key`, if any. -/
def goGet (l : List (K × V)) (k : K) : Option V :=
  (l.find? fun p => decide (p.1 = k)).map Prod.snd

/-- `items[key] = val`: store/overwrite the value for `key`. -/
def goInsert (l : List (K × V)) (k : K) (v : V) : List (K × V) :=
  (l.filter fun p => !decide (p.1 = k)) ++ [(k, v)]

/-- `delete(items, key)`: remove the entry for `key` if present. -/
def goDelete (l : List (K × V)) (k : K) : List (K × V) :=
  l.filter fun p => !decide (p.1 = k)

/-! ## The `dmap` data model -/

/-- `Shard` represents one partition of the entire data (the `sync.RWMutex`
has no sequential content). -/
structure Shard (K V : Type) where
  items : List (K × V)
  count : Int
deriving DecidableEq

instance : Inhabited (Shard K V) := ⟨⟨[], 0⟩⟩

theorem default_shard : (default : Shard K V) = { items := [], count := 0 } := rfl

/-- `DMap` is a fixed-length slice of shards. -/
abbrev DMap (K V : Type) := List (Shard K V)

/-- `New` allocates `nShards` empty shards (each with a zero `count`). -/
def New (n : Nat) : DMap K V :=
  List.replicate n { items := [], count := 0 }

/-- The `make([]*Shard[K, V], nShards)` call takes a Go `int`: it panics
(`none`) for a negative length and otherwise yields `New`. -/
def NewChecked (n : Int) : Option (DMap K V) :=
  if n < 0 then none else some (New n.toNat)

/-- `int(checksum[7]<<1 | checksum[19])` for the SHA-1 digest of a key's
byte representation.  `checksum[7]` is a Go `byte`, so the shift truncates
modulo 256 before the bitwise or. -/
def keyHash (bs : List Nat) : Nat :=
  let checksum := sha1Sum bs
  ((checksum.getD 7 0 <<< 1) % 256) ||| checksum.getD 19 0

variable (keyRepr : K → List Nat)

/-- `getShardIndex`: hash the key's printed representation
(`[]byte(fmt.Sprintf("%v", key))`, abstracted as `keyRepr`) and reduce
modulo the shard count. -/
def getShardIndex (m : DMap K V) (key : K) : Nat :=
  keyHash (keyRepr key) % m.length

/-- The Go expression `hash % len(m)` panics when `len(m) = 0` (integer
division by zero); the checked index is `none` exactly there. -/
def getShardIndexChecked (m : DMap K V) (key : K) : Option Nat :=
  if m.length = 0 then none else some (getShardIndex keyRepr m key)

/-- Replace the shard at an index by the result of mutating it (Go mutates
`m[i]` through the shard pointer); out-of-range indices are unreachable in
well-formed use. -/
def updateAt : DMap K V → Nat → (Shard K V → Shard K V) → DMap K V
  | [], _, _ => []
  | s :: rest, 0, f => f s :: rest
  | s :: rest, i + 1, f => s :: updateAt rest i f

/-- `Get`: look the key up in its target shard.  Go's `(v, ok)` pair is
modelled as `Option V`. -/
def Get (m : DMap K V) (key : K) : Option V :=
  goGet (m.getD (getShardIndex keyRepr m key) default).items key

/-- `Set`: store the value in the target shard and unconditionally
increment that shard's `count` (`shard.count += 1`). -/
def Set (m : DMap K V) (key : K) (val : V) : DMap K V :=
  updateAt m (getShardIndex keyRepr m key) fun s =>
    { items := goInsert s.items key val, count := s.count + 1 }

/-- `Remove`: delete the key from the target shard; the shard's `count`
is left unchanged by the source. -/
def Remove (m : DMap K V) (key : K) : DMap K V :=
  updateAt m (getShardIndex keyRepr m key) fun s =>
    { s with items := goDelete s.items key }

/-- `Keys`: collect the keys of every shard (the fan-out goroutines make
the interleaving order unspecified; the claims are stated up to
multiset/set equality). -/
def Keys (m : DMap K V) : List K :=
  (m.map fun s => s.items.map Prod.fst).flatten

/-- `Count`: sum the per-shard `count` fields. -/
def Count (m : DMap K V) : Int :=
  (m.map fun s => s.count).sum

/-- `Has`: `Get` discarding the value. -/
def Has (m : DMap K V) (key : K) : Bool :=
  (Get keyRepr m key).isSome

/-! ## Sequential executions -/

/-- A mutating call in a sequential (single-writer) execution. -/
inductive Op (K V : Type) where
  | set (key : K) (val : V)
  | remove (key : K)

/-- Apply one mutating call. -/
def applyOp (m : DMap K V) : Op K V → DMap K V
  | .set k v => Set keyRepr m k v
  | .remove k => Remove keyRepr m k

/-- Run a sequence of mutating calls left to right. -/
def run (m : DMap K V) (ops : List (Op K V)) : DMap K V :=
  ops.foldl (applyOp keyRepr) m

/-- The number of `Set` calls in a sequence. -/
def numSets (ops : List (Op K V)) : Nat :=
  ops.countP fun o => match o with | .set _ _ => true | .remove _ => false

/-! ## Structural lemmas about `updateAt` -/

theorem length_updateAt (m : DMap K V) (i : Nat) (f : Shard K V → Shard K V) :
    (updateAt m i f).length = m.length := by
  induction m generalizing i with
  | nil => rfl
  | cons s rest ih =>
    cases i with
    | zero => rfl
    | succ j => simp [updateAt, ih]

theorem updateAt_getD_same (m : DMap K V) (i : Nat) (f : Shard K V → Shard K V)
    (d : Shard K V) (h : i < m.length) :
    (updateAt m i f).getD i d = f (m.getD i d) := by
  induction m generalizing i with
  | nil => simp at h
  | cons s rest ih =>
    cases i with
    | zero => rfl
    | succ j =>
      simp only [updateAt, List.getD_cons_succ]
      exact ih j (by simpa using h)

theorem updateAt_getD_other (m : DMap K V) {i j : Nat} (f : Shard K V → Shard K V)
    (d : Shard K V) (h : i ≠ j) :
    (updateAt m i f).getD j d = m.getD j d := by
  induction m generalizing i j with
  | nil => rfl
  | cons s rest ih =>
    cases i with
    | zero =>
      cases j with
      | zero => exact absurd rfl h
      | succ j' => rfl
    | succ i' =>
      cases j with
      | zero => rfl
      | succ j' =>
        simp only [updateAt, List.getD_cons_succ]
        exact ih (fun hh => h (by rw [hh]))

/-! ## Lengths are preserved by every operation -/

theorem length_Set (m : DMap K V) (k : K) (v : V) :
    (Set keyRepr m k v).length = m.length := length_updateAt ..

theorem length_Remove (m : DMap K V) (k : K) :
    (Remove keyRepr m k).length = m.length := length_updateAt ..

theorem length_applyOp (m : DMap K V) (op : Op K V) :
    (applyOp keyRepr m op).length = m.length := by
  cases op <;> simp [applyOp, length_Set, length_Remove]

theorem length_run (m : DMap K V) (ops : List (Op K V)) :
    (run keyRepr m ops).length = m.length := by
  induction ops generalizing m with
  | nil => rfl
  | cons op rest ih =>
    simp only [run, List.foldl_cons]
    rw [show List.foldl (applyOp keyRepr) (applyOp keyRepr m op) rest =
          run keyRepr (applyOp keyRepr m op) rest from rfl,
        ih, length_applyOp]

theorem getShardIndex_congr (m m' : DMap K V) (k : K) (h : m.length = m'.length) :
    getShardIndex keyRepr m k = getShardIndex keyRepr m' k := by
  simp [getShardIndex, h]

theorem getShardIndex_lt (m : DMap K V) (k : K) (h : 0 < m.length) :
    getShardIndex keyRepr m k < m.length := Nat.mod_lt _ h

/-! ## The hash is built from digest bytes and stays below 256 -/

theorem wordBytes_lt {b h : Nat} (hb : b ∈ wordBytes h) : b < 256 := by
  simp only [wordBytes, List.mem_cons, List.not_mem_nil, or_false] at hb
  rcases hb with h1 | h1 | h1 | h1 <;> subst h1 <;> omega

theorem sha1Sum_mem_lt {b : Nat} {msg : List Nat} (hb : b ∈ sha1Sum msg) : b < 256 := by
  simp only [sha1Sum, List.mem_append] at hb
  rcases hb with (((h1 | h1) | h1) | h1) | h1 <;> exact wordBytes_lt h1

theorem getD_lt_256 {l : List Nat} (hl : ∀ b ∈ l, b < 256) (i : Nat) :
    l.getD i 0 < 256 := by
  rcases h : l[i]? with _ | b
  · simp [List.getD_eq_getElem?_getD, h]
  · have hb : b ∈ l := by
      have := List.getElem?_eq_some_iff.mp h
      rcases this with ⟨hlt, he⟩
      exact he ▸ List.getElem_mem hlt
    simp only [List.getD_eq_getElem?_getD, h, Option.getD_some]
    exact hl b hb

theorem keyHash_lt (bs : List Nat) : keyHash bs < 256 := by
  have h1 : ((sha1Sum bs).getD 7 0 <<< 1) % 256 < 256 := Nat.mod_lt _ (by norm_num)
  have h2 : (sha1Sum bs).getD 19 0 < 256 :=
    getD_lt_256 (fun b hb => sha1Sum_mem_lt hb) 19
  have h256 : (256 : Nat) = 2 ^ 8 := by norm_num
  rw [h256] at h1 h2
  calc keyHash bs = ((sha1Sum bs).getD 7 0 <<< 1) % 256 ||| (sha1Sum bs).getD 19 0 := rfl
    _ < 256 := h256 ▸ Nat.or_lt_two_pow h1 h2

/-! ## Lemmas about the association-list model of the Go map -/

theorem find?_filter_ne (l : List (K × V)) (k : K) :
    ((l.filter fun p => !decide (p.1 = k)).find? fun p => decide (p.1 = k)) = none := by
  simp only [List.find?_eq_none]
  intro x hx
  have := (List.mem_filter.mp hx).2
  simpa using this

theorem goGet_goInsert_same (l : List (K × V)) (k : K) (v : V) :
    goGet (goInsert l k v) k = some v := by
  simp [goGet, goInsert, find?_filter_ne]

theorem goGet_goDelete_same (l : List (K × V)) (k : K) :
    goGet (goDelete l k) k = none := by
  simp [goGet, goDelete, find?_filter_ne]

theorem goGet_isSome_iff (l : List (K × V)) (k : K) :
    (goGet l k).isSome ↔ k ∈ l.map Prod.fst := by
  induction l with
  | nil => simp [goGet]
  | cons p rest ih =>
    by_cases h : p.1 = k
    · rw [goGet, List.find?_cons_of_pos _ (by simpa using h)]
      simp [h]
    · rw [goGet, List.find?_cons_of_neg _ (by simpa using h)]
      rw [goGet] at ih
      simp only [List.map_cons, List.mem_cons, ih]
      constructor
      · exact Or.inr
      · rintro (hk | hk)
        · exact absurd hk.symm h
        · exact hk

theorem keys_goInsert (l : List (K × V)) (k : K) (v : V) :
    (goInsert l k v).map Prod.fst =
      ((l.map Prod.fst).filter fun x => !decide (x = k)) ++ [k] := by
  induction l with
  | nil => rfl
  | cons p rest ih =>
    by_cases h : p.1 = k <;>
      simp only [goInsert, List.filter_cons, List.map_cons] at ih ⊢ <;>
      simp [h, ih]

theorem keys_goDelete (l : List (K × V)) (k : K) :
    (goDelete l k).map Prod.fst =
      (l.map Prod.fst).filter fun x => !decide (x = k) := by
  induction l with
  | nil => rfl
  | cons p rest ih =>
    by_cases h : p.1 = k <;>
      simp only [goDelete, List.filter_cons, List.map_cons] at ih ⊢ <;>
      simp [h, ih]

theorem nodup_keys_goInsert (l : List (K × V)) (k : K) (v : V)
    (h : (l.map Prod.fst).Nodup) : ((goInsert l k v).map Prod.fst).Nodup := by
  rw [keys_goInsert]
  refine List.Nodup.append (h.filter _) (List.nodup_singleton k) ?_
  intro x hx hxk
  have h2 := (List.mem_filter.mp hx).2
  simp only [List.mem_singleton] at hxk
  simp [hxk] at h2

theorem nodup_keys_goDelete (l : List (K × V)) (k : K)
    (h : (l.map Prod.fst).Nodup) : ((goDelete l k).map Prod.fst).Nodup := by
  rw [keys_goDelete]
  exact h.filter _

/-! ## Well-formedness of reachable states

Every entry of shard `i` routes to `i` (the routing function is a pure
function of the key and the shard count), and each shard's keys are
unique (it models a Go map). -/

def ShardWF (n i : Nat) (s : Shard K V) : Prop :=
  (∀ p ∈ s.items, keyHash (keyRepr p.1) % n = i) ∧
  (s.items.map Prod.fst).Nodup

def WF (n : Nat) (st : DMap K V) : Prop :=
  st.length = n ∧ ∀ i, i < n → ShardWF keyRepr n i (st.getD i default)

theorem WF_New (n : Nat) : WF keyRepr n (New (K := K) (V := V) n) := by
  refine ⟨by simp [New], ?_⟩
  intro i hi
  have hgd : (New (K := K) (V := V) n).getD i default =
      { items := [], count := 0 } := by
    simp [New, List.getD_eq_getElem?_getD, List.getElem?_replicate_of_lt hi]
  rw [hgd]
  exact ⟨by simp, by simp⟩

theorem ShardWF_set (n i : Nat) (s : Shard K V) (k : K) (v : V)
    (hi : keyHash (keyRepr k) % n = i) (hs : ShardWF keyRepr n i s) :
    ShardWF keyRepr n i { items := goInsert s.items k v, count := s.count + 1 } := by
  constructor
  · intro p hp
    simp only [goInsert, List.mem_append, List.mem_filter,
      List.mem_singleton] at hp
    rcases hp with ⟨hmem, _⟩ | rfl
    · exact hs.1 p hmem
    · exact hi
  · exact nodup_keys_goInsert _ _ _ hs.2

theorem ShardWF_remove (n i : Nat) (s : Shard K V) (k : K)
    (hs : ShardWF keyRepr n i s) :
    ShardWF keyRepr n i { s with items := goDelete s.items k } := by
  constructor
  · intro p hp
    simp only [goDelete, List.mem_filter] at hp
    exact hs.1 p hp.1
  · exact nodup_keys_goDelete _ _ hs.2

theorem WF_Set (n : Nat) (hn : 0 < n) (st : DMap K V) (h : WF keyRepr n st)
    (k : K) (v : V) : WF keyRepr n (Set keyRepr st k v) := by
  obtain ⟨hlen, hsh⟩ := h
  have hidx : getShardIndex keyRepr st k = keyHash (keyRepr k) % n := by
    rw [getShardIndex, hlen]
  have hlt : getShardIndex keyRepr st k < st.length := by
    rw [hlen, hidx]; exact Nat.mod_lt _ hn
  refine ⟨by rw [length_Set, hlen], ?_⟩
  intro i hi
  by_cases hcase : i = getShardIndex keyRepr st k
  · subst hcase
    rw [Set, updateAt_getD_same _ _ _ _ hlt]
    exact ShardWF_set keyRepr n _ _ k v hidx.symm
      (hsh _ (by rw [← hlen]; exact hlt))
  · rw [Set, updateAt_getD_other _ _ _ (fun hh => hcase hh.symm)]
    exact hsh i hi

theorem WF_Remove (n : Nat) (hn : 0 < n) (st : DMap K V) (h : WF keyRepr n st)
    (k : K) : WF keyRepr n (Remove keyRepr st k) := by
  obtain ⟨hlen, hsh⟩ := h
  have hlt : getShardIndex keyRepr st k < st.length := by
    rw [hlen, getShardIndex, hlen]; exact Nat.mod_lt _ hn
  refine ⟨by rw [length_Remove, hlen], ?_⟩
  intro i hi
  by_cases hcase : i = getShardIndex keyRepr st k
  · subst hcase
    rw [Remove, updateAt_getD_same _ _ _ _ hlt]
    exact ShardWF_remove keyRepr n _ _ k (hsh _ (by rw [← hlen]; exact hlt))
  · rw [Remove, updateAt_getD_other _ _ _ (fun hh => hcase hh.symm)]
    exact hsh i hi

theorem WF_applyOp (n : Nat) (hn : 0 < n) (st : DMap K V)
    (h : WF keyRepr n st) (op : Op K V) :
    WF keyRepr n (applyOp keyRepr st op) := by
  cases op with
  | set k v => exact WF_Set keyRepr n hn st h k v
  | remove k => exact WF_Remove keyRepr n hn st h k

theorem WF_run (n : Nat) (hn : 0 < n) (st : DMap K V) (h : WF keyRepr n st)
    (ops : List (Op K V)) : WF keyRepr n (run keyRepr st ops) := by
  induction ops generalizing st with
  | nil => exact h
  | cons op rest ih =>
    simp only [run, List.foldl_cons]
    exact ih _ (WF_applyOp keyRepr n hn st h op)

/-! ## Lemmas about `Count` -/

theorem Count_updateAt_keep (m : DMap K V) (i : Nat)
    (f : Shard K V → Shard K V) (hf : ∀ s, (f s).count = s.count) :
    Count (updateAt m i f) = Count m := by
  induction m generalizing i with
  | nil => rfl
  | cons s rest ih =>
    cases i with
    | zero => simp [updateAt, Count, hf]
    | succ j =>
      simp only [updateAt, Count, List.map_cons, List.sum_cons]
      have := ih j
      simp only [Count] at this
      rw [this]

theorem Count_updateAt_incr (m : DMap K V) (i : Nat)
    (f : Shard K V → Shard K V) (hf : ∀ s, (f s).count = s.count + 1)
    (h : i < m.length) : Count (updateAt m i f) = Count m + 1 := by
  induction m generalizing i with
  | nil => simp at h
  | cons s rest ih =>
    cases i with
    | zero =>
      simp only [updateAt, Count, List.map_cons, List.sum_cons, hf]
      omega
    | succ j =>
      simp only [updateAt, Count, List.map_cons, List.sum_cons]
      have := ih j (by simpa using h)
      simp only [Count] at this
      rw [this]
      omega

theorem Count_Set (m : DMap K V) (k : K) (v : V) (h : 0 < m.length) :
    Count (Set keyRepr m k v) = Count m + 1 :=
  Count_updateAt_incr m _ _ (fun _ => rfl) (getShardIndex_lt keyRepr m k h)

theorem Count_Remove (m : DMap K V) (k : K) :
    Count (Remove keyRepr m k) = Count m :=
  Count_updateAt_keep m _ _ (fun _ => rfl)

theorem Count_New (n : Nat) : Count (New (K := K) (V := V) n) = 0 := by
  simp [Count, New]

theorem Count_run (st : DMap K V) (h : 0 < st.length) (ops : List (Op K V)) :
    Count (run keyRepr st ops) = Count st + (numSets ops : Int) := by
  induction ops generalizing st with
  | nil => simp [run, numSets]
  | cons op rest ih =>
    simp only [run, List.foldl_cons]
    have h' : 0 < (applyOp keyRepr st op).length := by
      rw [length_applyOp]; exact h
    have hih := ih (applyOp keyRepr st op) h'
    simp only [run] at hih
    rw [hih]
    cases op with
    | set k v =>
      simp only [applyOp]
      rw [Count_Set keyRepr st k v h]
      simp only [numSets, List.countP_cons, if_pos rfl]
      push_cast
      ring
    | remove k =>
      simp only [applyOp]
      rw [Count_Remove]
      simp [numSets, List.countP_cons]

/-! ## Shards beyond index 255 are never touched -/

theorem getD_run_high (st : DMap K V) (n : Nat) (hn : 256 < n)
    (hlen : st.length = n) (i : Nat) (hi : 256 ≤ i)
    (hgd : st.getD i default = default) (ops : List (Op K V)) :
    (run keyRepr st ops).getD i default = default := by
  induction ops generalizing st with
  | nil => exact hgd
  | cons op rest ih =>
    simp only [run, List.foldl_cons]
    have hidx : ∀ k : K, getShardIndex keyRepr st k ≠ i := by
      intro k
      have h1 : keyHash (keyRepr k) < 256 := keyHash_lt _
      have h2 : getShardIndex keyRepr st k = keyHash (keyRepr k) := by
        rw [getShardIndex, hlen]
        exact Nat.mod_eq_of_lt (lt_trans h1 hn)
      omega
    refine ih (applyOp keyRepr st op) (by rw [length_applyOp, hlen]) ?_
    cases op with
    | set k v =>
      simp only [applyOp, Set]
      rw [updateAt_getD_other _ _ _ (hidx k)]
      exact hgd
    | remove k =>
      simp only [applyOp, Remove]
      rw [updateAt_getD_other _ _ _ (hidx k)]
      exact hgd

theorem getD_of_lt {α : Type} (l : List α) (i : Nat) (d : α) (h : i < l.length) :
    l.getD i d = l[i] := by
  rw [List.getD_eq_getElem?_getD, List.getElem?_eq_getElem h, Option.getD_some]

theorem New_getD (n i : Nat) :
    (New (K := K) (V := V) n).getD i default = default := by
  rw [New, List.getD_eq_getElem?_getD, List.getElem?_replicate]
  rcases Nat.lt_or_ge i n with h | h
  · rw [if_pos h, Option.getD_some, default_shard]
  · rw [if_neg (Nat.not_lt.mpr h), Option.getD_none]

/-! ## Claims -/

/-- C1: the claim that a shard's `count` always equals the number of
entries in its `items` map at quiescent points fails on the code: after
`Set "a" 1; Set "a" 2` on a one-shard map the shard holds one entry but
its `count` is 2, because `Set` increments `count` unconditionally. -/
theorem C1_count_items_mismatch :
    ((Set id (Set id (New 1 : DMap (List Nat) Nat) [97] 1) [97] 2).getD 0
        default).count = 2 ∧
    ((Set id (Set id (New 1 : DMap (List Nat) Nat) [97] 1) [97] 2).getD 0
        default).items.length = 1 := by decide

/-- C2: the claim that `Set` increments the shard's `count` if and only
if the key was absent fails on the code: with the key `"a"` already
present (first conjunct), a second `Set` still raises the shard's
`count` from 1 to 2. -/
theorem C2_set_increments_on_overwrite :
    Get id (Set id (New 1 : DMap (List Nat) Nat) [97] 1) [97] = some 1 ∧
    ((Set id (New 1 : DMap (List Nat) Nat) [97] 1).getD 0 default).count = 1 ∧
    ((Set id (Set id (New 1 : DMap (List Nat) Nat) [97] 1) [97] 2).getD 0
        default).count = 2 := by decide

/-- C3: the claim that `Remove` decrements the shard's `count` exactly
when a deletion occurred fails on the code: the key `"a"` is present,
`Remove` deletes it (second conjunct), yet the shard's `count` stays 1
because the source never decrements it. -/
theorem C3_remove_does_not_decrement :
    Get id (Set id (New 1 : DMap (List Nat) Nat) [97] 1) [97] = some 1 ∧
    Get id (Remove id (Set id (New 1 : DMap (List Nat) Nat) [97] 1) [97]) [97] =
      none ∧
    ((Remove id (Set id (New 1 : DMap (List Nat) Nat) [97] 1) [97]).getD 0
        default).count = 1 := by decide

/-- C4: the claim that `Count()` equals the number of distinct keys ever
set minus those removed fails on the code: after `Set "a" 1; Set "a" 2`
exactly one key is live (first conjunct) but `Count` reports 2. -/
theorem C4_count_overcounts :
    Keys (run id (New 1 : DMap (List Nat) Nat)
      [Op.set [97] 1, Op.set [97] 2]) = [[97]] ∧
    Count (run id (New 1 : DMap (List Nat) Nat)
      [Op.set [97] 1, Op.set [97] 2]) = 2 := by decide

/-- C5: the claim that every non-positive shard count fails fast at
construction fails on the code at `n = 0`: `New 0` succeeds and returns
an empty shard slice (first conjunct), and the misconfiguration only
manifests later, as the division by zero in `hash % len(m)` inside
`getShardIndex` (second conjunct).  A negative count does panic inside
`make` at construction time (third conjunct). -/
theorem C5_new_zero_defers_failure :
    NewChecked (K := List Nat) (V := Nat) 0 = some [] ∧
    getShardIndexChecked id ([] : DMap (List Nat) Nat) [97] = none ∧
    NewChecked (K := List Nat) (V := Nat) (-1) = none := by decide

/-- C6: for every map with at least one shard and every key, the routing
function produces an index in `[0, N)` (it is a `Nat`, hence `≥ 0`), so
the shard lookup `m[i]` is always in range and the out-of-range case is
unreachable. -/
theorem C6_shard_index_in_range (m : DMap K V) (key : K) (h : 0 < m.length) :
    getShardIndex keyRepr m key < m.length ∧
    (m[getShardIndex keyRepr m key]?).isSome := by
  refine ⟨getShardIndex_lt keyRepr m key h, ?_⟩
  rw [List.getElem?_eq_getElem (getShardIndex_lt keyRepr m key h)]
  rfl

/-- C6 witness: instantiation at a concrete one-shard map and key. -/
theorem C6_witness :
    getShardIndex id (New 1 : DMap (List Nat) Nat) [97] <
      (New 1 : DMap (List Nat) Nat).length ∧
    ((New 1 : DMap (List Nat) Nat)[getShardIndex id
        (New 1 : DMap (List Nat) Nat) [97]]?).isSome :=
  C6_shard_index_in_range id (New 1) [97] (by decide)

/-- C7: for every map state with at least one shard, `Set key val`
immediately followed by `Get key` returns `(val, true)` (modelled as
`some val`). -/
theorem C7_set_get_roundtrip (m : DMap K V) (key : K) (val : V)
    (h : 0 < m.length) :
    Get keyRepr (Set keyRepr m key val) key = some val := by
  have hidx : getShardIndex keyRepr (Set keyRepr m key val) key =
      getShardIndex keyRepr m key :=
    getShardIndex_congr keyRepr _ _ key (length_Set keyRepr m key val)
  rw [Get, hidx, Set, updateAt_getD_same _ _ _ _ (getShardIndex_lt keyRepr m key h)]
  exact goGet_goInsert_same _ _ _

/-- C7 witness: instantiation at a concrete one-shard map, key and value. -/
theorem C7_witness :
    Get id (Set id (New 1 : DMap (List Nat) Nat) [97] 5) [97] = some 5 :=
  C7_set_get_roundtrip id (New 1) [97] 5 (by decide)

/-- C8: after any sequential run of `Set`/`Remove` calls from a freshly
constructed map, each key appears in at most one shard's `items`
(shards are pairwise disjoint), and `Keys` lists each live key exactly
once: its result has no duplicates and contains exactly the keys on
which `Get` succeeds. -/
theorem C8_key_uniqueness (n : Nat) (hn : 0 < n) (ops : List (Op K V)) :
    (∀ i j, i < (run keyRepr (New n) ops).length →
      j < (run keyRepr (New n) ops).length → i ≠ j → ∀ k : K,
      k ∈ ((run keyRepr (New n) ops).getD i default).items.map Prod.fst →
      k ∉ ((run keyRepr (New n) ops).getD j default).items.map Prod.fst) ∧
    (Keys (run keyRepr (New n) ops)).Nodup ∧
    (∀ k : K, k ∈ Keys (run keyRepr (New n) ops) ↔
      (Get keyRepr (run keyRepr (New n) ops) k).isSome) := by
  obtain ⟨hlen, hsh⟩ := WF_run keyRepr n hn _ (WF_New keyRepr n) ops
  have hroute : ∀ i, i < n → ∀ k : K,
      k ∈ ((run keyRepr (New n) ops).getD i default).items.map Prod.fst →
      keyHash (keyRepr k) % n = i := by
    intro i hi k hk
    obtain ⟨p, hp, he⟩ := List.mem_map.mp hk
    have h2 := (hsh i hi).1 p hp
    rw [he] at h2
    exact h2
  have hdisj : ∀ i j, i < n → j < n → i ≠ j → ∀ k : K,
      k ∈ ((run keyRepr (New n) ops).getD i default).items.map Prod.fst →
      k ∉ ((run keyRepr (New n) ops).getD j default).items.map Prod.fst := by
    intro i j hi hj hij k hki hkj
    have e1 := hroute i hi k hki
    have e2 := hroute j hj k hkj
    exact hij (e1 ▸ e2)
  refine ⟨?_, ?_, ?_⟩
  · intro i j hi hj
    rw [hlen] at hi hj
    exact hdisj i j hi hj
  · rw [Keys, List.nodup_flatten]
    constructor
    · intro l hl
      obtain ⟨s, hs, rfl⟩ := List.mem_map.mp hl
      obtain ⟨i, hilen, rfl⟩ := List.mem_iff_getElem.mp hs
      have h2 := (hsh i (by rw [← hlen]; exact hilen)).2
      rw [getD_of_lt _ _ _ hilen] at h2
      exact h2
    · rw [List.pairwise_map, List.pairwise_iff_getElem]
      intro i j hi hj hij
      intro k hki hkj
      have e1 := hroute i (by rw [← hlen]; exact hi) k
        (by rw [getD_of_lt _ _ _ hi]; exact hki)
      have e2 := hroute j (by rw [← hlen]; exact hj) k
        (by rw [getD_of_lt _ _ _ hj]; exact hkj)
      exact Nat.ne_of_lt hij (e1 ▸ e2)
  · intro k
    have hidx : getShardIndex keyRepr (run keyRepr (New n) ops) k =
        keyHash (keyRepr k) % n := by
      rw [getShardIndex, hlen]
    have hlt : keyHash (keyRepr k) % n < n := Nat.mod_lt _ hn
    constructor
    · intro hk
      rw [Keys] at hk
      obtain ⟨l, hl, hkl⟩ := List.mem_flatten.mp hk
      obtain ⟨s, hs, rfl⟩ := List.mem_map.mp hl
      obtain ⟨i, hilen, rfl⟩ := List.mem_iff_getElem.mp hs
      have hroutei := hroute i (by rw [← hlen]; exact hilen) k
        (by rw [getD_of_lt _ _ _ hilen]; exact hkl)
      rw [Get, hidx, goGet_isSome_iff, hroutei, getD_of_lt _ _ _ hilen]
      exact hkl
    · intro hk
      rw [Get, hidx, goGet_isSome_iff] at hk
      rw [Keys]
      apply List.mem_flatten.mpr
      refine ⟨((run keyRepr (New n) ops).getD (keyHash (keyRepr k) % n)
        default).items.map Prod.fst, ?_, hk⟩
      apply List.mem_map.mpr
      refine ⟨_, ?_, rfl⟩
      rw [getD_of_lt _ _ _ (by rw [hlen]; exact hlt)]
      exact List.getElem_mem _

/-- C8 witness: instantiation at one shard and a single `Set`. -/
theorem C8_witness :
    (∀ i j, i < (run id (New 1 : DMap (List Nat) Nat) [Op.set [97] 5]).length →
      j < (run id (New 1 : DMap (List Nat) Nat) [Op.set [97] 5]).length →
      i ≠ j → ∀ k : List Nat,
      k ∈ ((run id (New 1 : DMap (List Nat) Nat) [Op.set [97] 5]).getD i
        default).items.map Prod.fst →
      k ∉ ((run id (New 1 : DMap (List Nat) Nat) [Op.set [97] 5]).getD j
        default).items.map Prod.fst) ∧
    (Keys (run id (New 1 : DMap (List Nat) Nat) [Op.set [97] 5])).Nodup ∧
    (∀ k : List Nat,
      k ∈ Keys (run id (New 1 : DMap (List Nat) Nat) [Op.set [97] 5]) ↔
      (Get id (run id (New 1 : DMap (List Nat) Nat) [Op.set [97] 5]) k).isSome) :=
  C8_key_uniqueness id 1 (by decide) [Op.set [97] 5]

/-- C9: in every sequential execution from a freshly constructed map
with at least one shard, `Count` equals the total number of `Set` calls
performed, regardless of overwrites and of intervening `Remove` calls:
`Set` increments a shard `count` unconditionally and `Remove` never
decrements one. -/
theorem C9_count_equals_set_calls (n : Nat) (hn : 0 < n)
    (ops : List (Op K V)) :
    Count (run keyRepr (New n) ops) = (numSets ops : Int) := by
  have h := Count_run keyRepr (New (K := K) (V := V) n)
    (by simpa [New] using hn) ops
  rw [h, Count_New, zero_add]

/-- C9 witness: two `Set` calls (one an overwrite) and a `Remove` leave
`Count` at the number of `Set` calls. -/
theorem C9_witness :
    Count (run id (New 1 : DMap (List Nat) Nat)
      [Op.set [97] 1, Op.remove [97], Op.set [97] 2]) =
    (numSets [Op.set ([97] : List Nat) (1 : Nat), Op.remove [97],
      Op.set [97] 2] : Int) :=
  C9_count_equals_set_calls id 1 (by decide) _

/-- C10: the routing hash is assembled from single digest bytes (with
the byte-level shift truncating mod 256), so it lies in `[0, 255]`; for
every shard count above 256 the selected index never exceeds 255, and in
every sequential execution the shards at index 256 and beyond keep empty
`items` and a zero `count` forever. -/
theorem C10_high_shards_stay_empty (bs : List Nat) (n : Nat) (hn : 256 < n)
    (key : K) (ops : List (Op K V)) (i : Nat) (hi : 256 ≤ i) :
    keyHash bs < 256 ∧
    getShardIndex keyRepr (New n : DMap K V) key ≤ 255 ∧
    ((run keyRepr (New n) ops).getD i default).items = [] ∧
    ((run keyRepr (New n) ops).getD i default).count = 0 := by
  have hlen : (New (K := K) (V := V) n).length = n := by simp [New]
  have hkey : keyHash (keyRepr key) < 256 := keyHash_lt _
  have hrun := getD_run_high keyRepr (New (K := K) (V := V) n) n hn hlen i hi
    (New_getD (K := K) (V := V) n i) ops
  refine ⟨keyHash_lt bs, ?_, ?_, ?_⟩
  · rw [getShardIndex, hlen, Nat.mod_eq_of_lt (lt_trans hkey hn)]
    omega
  · rw [hrun, default_shard]
  · rw [hrun, default_shard]

/-- C10 witness: with 257 shards, shard 256 is untouched by a `Set`. -/
theorem C10_witness :
    keyHash [] < 256 ∧
    getShardIndex id (New 257 : DMap (List Nat) Nat) [97] ≤ 255 ∧
    ((run id (New 257 : DMap (List Nat) Nat) [Op.set [97] 5]).getD 256
      default).items = [] ∧
    ((run id (New 257 : DMap (List Nat) Nat) [Op.set [97] 5]).getD 256
      default).count = 0 :=
  C10_high_shards_stay_empty id [] 257 (by decide) [97] [Op.set [97] 5] 256
    (by decide)

end DmapSpec
